import Mathlib

/-!
Verification of the position codec, the non-zero scalar wrapper and the
keystream application driver of the `traits` repository, against its
natural-language specification.

Machine integers are embedded as mathematical integers together with an
explicit range `[min, max]`; every checked operation of the source is
translated into an `Option Int` returning `none` exactly when the Rust
operation reports overflow.
-/

/-- A machine integer width, given by its inclusive range of representable
values.  `i32` is `[-2^31, 2^31 - 1]`, the unsigned widths start at `0`. -/
structure IntWidth where
  min : Int
  max : Int

/-- The `i32` width. -/
def i32W : IntWidth := ⟨-(2 ^ 31), 2 ^ 31 - 1⟩

/-- The `u32` width. -/
def u32W : IntWidth := ⟨0, 2 ^ 32 - 1⟩

/-- The `u64` width. -/
def u64W : IntWidth := ⟨0, 2 ^ 64 - 1⟩

/-- The `u128` width. -/
def u128W : IntWidth := ⟨0, 2 ^ 128 - 1⟩

/-- The `usize` width, modelled as 64 bits wide. -/
def usizeW : IntWidth := ⟨0, 2 ^ 64 - 1⟩

/-- The five widths for which the source macro `impl_seek_num!` generates a
`SeekNum` implementation. -/
def seekNumWidths : List IntWidth := [i32W, u32W, u64W, u128W, usizeW]

/-- `u8::checked_sub`: `a - b`, or `none` when `b > a`. -/
def checked_sub_u8 (a b : Nat) : Option Nat :=
  if b ≤ a then some (a - b) else none

/-- `TryInto` conversion of a (non-negative) counter value into width `w`:
succeeds exactly when the value is representable. -/
def try_into_w (w : IntWidth) (n : Nat) : Option Int :=
  if w.min ≤ (n : Int) ∧ (n : Int) ≤ w.max then some (n : Int) else none

/-- `checked_mul` at width `w`: the exact product, or `none` when it leaves
the representable range. -/
def checked_mul_w (w : IntWidth) (a b : Int) : Option Int :=
  if w.min ≤ a * b ∧ a * b ≤ w.max then some (a * b) else none

/-- `checked_sub` at width `w`: the exact difference, or `none` when it
leaves the representable range. -/
def checked_sub_w (w : IntWidth) (a b : Int) : Option Int :=
  if w.min ≤ a - b ∧ a - b ≤ w.max then some (a - b) else none

/-- `SeekNum::from_block_byte` (src/cipher/src/stream.rs, macro
`impl_seek_num!`): compute `rem = block_size - byte` with `u8::checked_sub`,
convert `block` into the position width, then
`block.checked_mul(block_size).and_then(|v| v.checked_sub(rem))`.
The counter value `block` is a non-negative integer (the counter types are
unsigned). -/
def from_block_byte (w : IntWidth) (block byte bs : Nat) : Option Int :=
  (checked_sub_u8 bs byte).bind fun rem =>
    (try_into_w w block).bind fun b =>
      (checked_mul_w w b (bs : Int)).bind fun v =>
        checked_sub_w w v (rem : Int)

/-- `SeekNum::into_block_byte` (src/cipher/src/stream.rs, macro
`impl_seek_num!`): `byte = (self % bs) as u8` and
`block = T::try_from(self / bs)`.  Rust `/` and `%` on signed integers are
`Int.tdiv` and `Int.tmod` (truncation toward zero, remainder keeping the
dividend's sign), and `as u8` keeps the low eight bits, i.e. reduces
modulo `256` into `[0, 256)`.  `tw` is the range of the counter type `T`. -/
def into_block_byte (tw : IntWidth) (pos : Int) (bs : Nat) : Option (Int × Nat) :=
  if tw.min ≤ Int.tdiv pos (bs : Int) ∧ Int.tdiv pos (bs : Int) ≤ tw.max then
    some (Int.tdiv pos (bs : Int), ((Int.tmod pos (bs : Int)) % 256).toNat)
  else none


/-!
## The non-zero scalar wrapper (src/elliptic-curve/src/scalar/nonzero.rs)

The field engine behind `Scalar<C>` is an external collaborator; it is
embedded as an arbitrary Lean field with decidable equality, and its
fallible decoding and conversion primitives are taken as parameters.
-/

/-- The elliptic-curve crate's `Error` (src/elliptic-curve/src/error.rs):
a unit struct carrying no further information. -/
structure CryptoError : Type
  deriving DecidableEq

/-- `NonZeroScalar<C>`: a wrapper around a single field element.  The
non-zero invariant is not baked into the type (as in the source, where it
is maintained dynamically); the theorems below establish it. -/
structure NonZeroScalar (F : Type) where
  scalar : F
  deriving DecidableEq

section NonZeroScalarSection

variable {F : Type} [Field F] [DecidableEq F]

/-- `NonZeroScalar::new`: `CtOption::new(Self { scalar }, !scalar.is_zero())`,
present exactly when the element is not the additive identity. -/
def NonZeroScalar.new (s : F) : Option (NonZeroScalar F) :=
  if s = 0 then none else some ⟨s⟩

/-- `NonZeroScalar::from_repr`: `Scalar::from_repr(repr).and_then(Self::new)`.
The field engine's decoder is the parameter `decode`. -/
def NonZeroScalar.from_repr {R : Type} (decode : R → Option F) (r : R) :
    Option (NonZeroScalar F) :=
  (decode r).bind fun s => NonZeroScalar.new s

/-- `NonZeroScalar::from_uint`:
`ScalarPrimitive::new(uint).and_then(|scalar| Self::new(scalar.into()))`.
The primitive constructor and the conversion are parameters. -/
def NonZeroScalar.from_uint {U P : Type} (primNew : U → Option P) (toScalar : P → F)
    (u : U) : Option (NonZeroScalar F) :=
  (primNew u).bind fun p => NonZeroScalar.new (toScalar p)

/-- `TryFrom<&[u8]> for NonZeroScalar`: convert the byte slice into a
fixed-width representation (fails on wrong length), then
`from_repr(...).into_option().ok_or(Error)`. -/
def NonZeroScalar.try_from_bytes {R : Type} (toRepr : List Nat → Option R)
    (decode : R → Option F) (bytes : List Nat) : Except CryptoError (NonZeroScalar F) :=
  match toRepr bytes with
  | none => Except.error ⟨⟩
  | some r =>
    match NonZeroScalar.from_repr decode r with
    | some z => Except.ok z
    | none => Except.error ⟨⟩

/-- `Deserialize for NonZeroScalar`: deserialize a `ScalarPrimitive`, then
gate the converted scalar through `Self::new`. -/
def NonZeroScalar.deserialize {D P : Type} (deser : D → Option P) (toScalar : P → F)
    (d : D) : Except CryptoError (NonZeroScalar F) :=
  match deser d with
  | none => Except.error ⟨⟩
  | some p =>
    match NonZeroScalar.new (toScalar p) with
    | some z => Except.ok z
    | none => Except.error ⟨⟩

/-- `Mul for NonZeroScalar`: `self.scalar * other.scalar` (the source also
debug-asserts the product non-zero; claim C5 proves it). -/
def NonZeroScalar.mul (a b : NonZeroScalar F) : NonZeroScalar F :=
  ⟨a.scalar * b.scalar⟩

/-- `Neg for NonZeroScalar`: `-self.scalar`. -/
def NonZeroScalar.neg (a : NonZeroScalar F) : NonZeroScalar F :=
  ⟨-a.scalar⟩

/-- Modelled from the spec: the field engine's `Invert` on `Scalar<C>`
(not under src/) returns the multiplicative inverse as a `CtOption` that is
present exactly for non-zero inputs. -/
def scalarInvert (s : F) : Option F :=
  if s = 0 then none else some s⁻¹

/-- `Invert::invert for NonZeroScalar`: `Invert::invert(&self.scalar).unwrap()`.
The `unwrap` of an absent value (unreachable for valid wrappers) is modelled
by the default `0`. -/
def NonZeroScalar.invert (a : NonZeroScalar F) : NonZeroScalar F :=
  ⟨(scalarInvert a.scalar).getD 0⟩

/-- `Invert::invert_vartime for NonZeroScalar`: same value as `invert`,
computed in variable time (timing is not modelled). -/
def NonZeroScalar.invert_vartime (a : NonZeroScalar F) : NonZeroScalar F :=
  ⟨(scalarInvert a.scalar).getD 0⟩

/-- `Zeroize for NonZeroScalar`: a volatile write clears the scalar, then
`self.scalar = Scalar::ONE` restores the multiplicative identity; the
observable final state is `1`. -/
def NonZeroScalar.zeroize (_a : NonZeroScalar F) : NonZeroScalar F :=
  ⟨1⟩

/-- Prefix products `[c, c*a_1, c*a_1*a_2, ...]` of a list, one per element. -/
def scanProds (acc : F) : List F → List F
  | [] => []
  | a :: rest => acc :: scanProds (acc * a) rest

/-- The backward walk of the running-product trick: each pair holds an
element and the prefix product of the elements before it; `t` is the
inverse of the prefix product up to and including the current element. -/
def backWalk (t : F) : List (F × F) → List F
  | [] => []
  | p :: rest => (t * p.2) :: backWalk (t * p.1) rest

/-- Modelled from the spec: `ops::invert_batch_internal` (not under src/)
computes all inverses with a single inversion: prefix products, one
inversion of the total product, then a backward walk recovering each
inverse with one multiplication per element. -/
def batch_invert_scalars (l : List F) : List F :=
  (backWalk (l.prod)⁻¹ ((l.zip (scanProds 1 l)).reverse)).reverse

/-- `BatchInvert::batch_invert for NonZeroScalar` (array and `Vec` variants,
both delegating to `ops::invert_batch_internal` on the inner scalars). -/
def NonZeroScalar.batch_invert (l : List (NonZeroScalar F)) : List (NonZeroScalar F) :=
  (batch_invert_scalars (l.map fun a => a.scalar)).map fun s => ⟨s⟩

end NonZeroScalarSection

/-- A concrete one-byte decoder into the rationals, used to instantiate the
abstract field engine in witnesses and counterexamples. -/
def decodeQ1 : List Nat → Option ℚ :=
  fun bys =>
    match bys with
    | [b] => some ((b : Nat) : ℚ)
    | _ => none


/-!
## Keystream application driver (src/cipher/src/stream.rs)
-/

/-- `StreamCipherError` (cipher crate): a unit struct carrying no payload;
`apply_keystream_b2b` constructs it with no arguments on a length mismatch
and `try_apply_keystream_inout` returns the same type on keystream
exhaustion. -/
structure StreamCipherError : Type
  deriving DecidableEq

/-- A stream cipher state: remaining keystream capacity, the keystream as a
function of the absolute byte offset, and the current offset. -/
structure Cipher where
  remaining : Nat
  ks : Nat → Nat
  pos : Nat

/-- Modelled from the spec: `try_apply_keystream_inout` (implemented by the
core wrapper, outside src/) either XORs exactly `buf.length` keystream
bytes into the buffer and advances the state, or — when the remaining
capacity is smaller than the buffer — returns the exhaustion error and
leaves both the state and the buffer untouched. -/
def tryApplyKeystreamInout (c : Cipher) (buf : List Nat) :
    Except StreamCipherError Unit × Cipher × List Nat :=
  if buf.length ≤ c.remaining then
    (Except.ok (), ⟨c.remaining - buf.length, c.ks, c.pos + buf.length⟩,
      (List.range buf.length).zipWith (fun i b => Nat.xor b (c.ks (c.pos + i))) buf)
  else
    (Except.error ⟨⟩, c, buf)

/-- `StreamCipher::try_write_keystream` (src/cipher/src/stream.rs, lines
112-115): `buf.fill(0); self.try_apply_keystream(buf)` — the buffer is
zeroed before the fallible application is attempted. -/
def tryWriteKeystream (c : Cipher) (buf : List Nat) :
    Except StreamCipherError Unit × Cipher × List Nat :=
  tryApplyKeystreamInout c (List.replicate buf.length 0)

/-- `StreamCipher::apply_keystream_b2b` (src/cipher/src/stream.rs, lines
162-170): `InOutBuf::new(input, output)` fails with `StreamCipherError`
when the lengths differ (before touching any byte); otherwise the
keystream is applied to the input and the result written to the output. -/
def applyKeystreamB2B (c : Cipher) (input output : List Nat) :
    Except StreamCipherError Unit × Cipher × List Nat :=
  if input.length = output.length then
    match tryApplyKeystreamInout c input with
    | (Except.ok u, c2, res) => (Except.ok u, c2, res)
    | (Except.error e, c2, _) => (Except.error e, c2, output)
  else
    (Except.error ⟨⟩, c, output)

/-- A cipher with no remaining keystream capacity. -/
def exhaustedCipher : Cipher := ⟨0, fun _ => 0, 0⟩

/-- A cipher with ample remaining keystream capacity. -/
def freshCipher : Cipher := ⟨100, fun _ => 0, 0⟩

/-- Hex digit value of a character, case-insensitive. -/
def hexVal (c : Char) : Option Nat :=
  if '0' ≤ c ∧ c ≤ '9' then some (c.toNat - '0'.toNat)
  else if 'a' ≤ c ∧ c ≤ 'f' then some (c.toNat - 'a'.toNat + 10)
  else if 'A' ≤ c ∧ c ≤ 'F' then some (c.toNat - 'A'.toNat + 10)
  else none

/-- Modelled from the spec: `base16ct::mixed::decode` — case-insensitive
hexadecimal, two characters per byte; an odd length or a non-hex character
fails. -/
def hexDecode : List Char → Option (List Nat)
  | [] => some []
  | [_] => none
  | c1 :: c2 :: rest =>
    match hexVal c1, hexVal c2, hexDecode rest with
    | some hi, some lo, some bs => some ((16 * hi + lo) :: bs)
    | _, _, _ => none

/-- `FromStr for NonZeroScalar` (src/elliptic-curve/src/scalar/nonzero.rs,
lines 493-501): decode the hex string into the field's byte width `w`
(any other decoded length is an error), then
`from_repr(bytes).into_option().ok_or(Error)`. -/
def from_str {F : Type} [Field F] [DecidableEq F] (w : Nat)
    (decode : List Nat → Option F) (hex : List Char) :
    Except CryptoError (NonZeroScalar F) :=
  match hexDecode hex with
  | none => Except.error ⟨⟩
  | some bytes =>
    if bytes.length = w then
      match NonZeroScalar.from_repr decode bytes with
      | some z => Except.ok z
      | none => Except.error ⟨⟩
    else Except.error ⟨⟩



theorem tmod_natCast (m n : Nat) : Int.tmod (m : Int) (n : Int) = ((m % n : Nat) : Int) := by
  simp [Int.tmod]

theorem tdiv_natCast (m n : Nat) : Int.tdiv (m : Int) (n : Int) = ((m / n : Nat) : Int) := by
  simp [Int.tdiv]

/-- Claim C1: for every counter value `block`, every `byte` in
`(0, block_size]` and every position width, `from_block_byte` returns
exactly `block * block_size - (block_size - byte)`, and returns an overflow
error precisely when `byte > block_size`, when `block` does not convert
into the width, or when the multiplication or subtraction leaves the
width's range; moreover `from_block_byte(2, 16, 16) = 32` at each of the
five widths `i32`, `u32`, `u64`, `u128` and `usize`. -/
theorem c1_from_block_byte_spec :
    (∀ (w : IntWidth) (block byte bs : Nat), w.min ≤ 0 → 0 < byte → byte ≤ bs →
      from_block_byte w block byte bs =
        if (block : Int) ≤ w.max ∧ (block : Int) * (bs : Int) ≤ w.max ∧
            w.min ≤ (block : Int) * (bs : Int) - ((bs : Int) - (byte : Int))
        then some ((block : Int) * (bs : Int) - ((bs : Int) - (byte : Int)))
        else none) ∧
    (∀ (w : IntWidth) (block byte bs : Nat), bs < byte →
      from_block_byte w block byte bs = none) ∧
    (∀ w ∈ seekNumWidths, from_block_byte w 2 16 16 = some 32) := by
  refine ⟨?_, ?_, ?_⟩
  · intro w block byte bs hw hpos hle
    have hb0 : (0 : Int) ≤ (block : Int) := Int.ofNat_nonneg block
    have hs0 : (0 : Int) ≤ (bs : Int) := Int.ofNat_nonneg bs
    have hrem : ((bs - byte : Nat) : Int) = (bs : Int) - (byte : Int) := by
      push_cast [hle]; ring
    have hmul0 : (0 : Int) ≤ (block : Int) * (bs : Int) := mul_nonneg hb0 hs0
    have hsy : (0 : Int) ≤ (bs : Int) - (byte : Int) := by
      have h := Int.ofNat_le.mpr hle
      omega
    simp only [from_block_byte, checked_sub_u8, try_into_w, checked_mul_w, checked_sub_w]
    rw [if_pos hle, Option.some_bind]
    by_cases h1 : (block : Int) ≤ w.max
    · rw [if_pos (show w.min ≤ (block : Int) ∧ (block : Int) ≤ w.max from
          ⟨le_trans hw hb0, h1⟩), Option.some_bind]
      by_cases h2 : (block : Int) * (bs : Int) ≤ w.max
      · rw [if_pos (show w.min ≤ (block : Int) * (bs : Int) ∧ (block : Int) * (bs : Int) ≤ w.max
            from ⟨le_trans hw hmul0, h2⟩), Option.some_bind, hrem]
        by_cases h3 : w.min ≤ (block : Int) * (bs : Int) - ((bs : Int) - (byte : Int))
        · rw [if_pos (show w.min ≤ (block : Int) * (bs : Int) - ((bs : Int) - (byte : Int)) ∧
              (block : Int) * (bs : Int) - ((bs : Int) - (byte : Int)) ≤ w.max from
              ⟨h3, by linarith⟩),
            if_pos (show (block : Int) ≤ w.max ∧ (block : Int) * (bs : Int) ≤ w.max ∧
              w.min ≤ (block : Int) * (bs : Int) - ((bs : Int) - (byte : Int)) from ⟨h1, h2, h3⟩)]
        · rw [if_neg (show ¬(w.min ≤ (block : Int) * (bs : Int) - ((bs : Int) - (byte : Int)) ∧
              (block : Int) * (bs : Int) - ((bs : Int) - (byte : Int)) ≤ w.max) from
              fun hc => h3 hc.1),
            if_neg (show ¬((block : Int) ≤ w.max ∧ (block : Int) * (bs : Int) ≤ w.max ∧
              w.min ≤ (block : Int) * (bs : Int) - ((bs : Int) - (byte : Int))) from
              fun hc => h3 hc.2.2)]
      · rw [if_neg (show ¬(w.min ≤ (block : Int) * (bs : Int) ∧
            (block : Int) * (bs : Int) ≤ w.max) from fun hc => h2 hc.2), Option.none_bind,
          if_neg (show ¬((block : Int) ≤ w.max ∧ (block : Int) * (bs : Int) ≤ w.max ∧
            w.min ≤ (block : Int) * (bs : Int) - ((bs : Int) - (byte : Int))) from
            fun hc => h2 hc.2.1)]
    · rw [if_neg (show ¬(w.min ≤ (block : Int) ∧ (block : Int) ≤ w.max) from
          fun hc => h1 hc.2), Option.none_bind,
        if_neg (show ¬((block : Int) ≤ w.max ∧ (block : Int) * (bs : Int) ≤ w.max ∧
          w.min ≤ (block : Int) * (bs : Int) - ((bs : Int) - (byte : Int))) from
          fun hc => h1 hc.1)]
  · intro w block byte bs hgt
    simp only [from_block_byte, checked_sub_u8]
    rw [if_neg (by omega), Option.none_bind]
  · intro w hwmem
    fin_cases hwmem <;> decide

/-- Witness for claim C1 at width `u32`, `block = 3`, `byte = 4`,
`block_size = 16`. -/
theorem c1_witness :
    (u32W.min ≤ 0 ∧ 0 < 4 ∧ (4 : Nat) ≤ 16) ∧
    from_block_byte u32W 3 4 16 =
      (if ((3 : Nat) : Int) ≤ u32W.max ∧ ((3 : Nat) : Int) * ((16 : Nat) : Int) ≤ u32W.max ∧
          u32W.min ≤ ((3 : Nat) : Int) * ((16 : Nat) : Int) - (((16 : Nat) : Int) - ((4 : Nat) : Int))
      then some (((3 : Nat) : Int) * ((16 : Nat) : Int) - (((16 : Nat) : Int) - ((4 : Nat) : Int)))
      else none) :=
  ⟨⟨by decide, by decide, by decide⟩,
    c1_from_block_byte_spec.1 u32W 3 4 16 (by decide) (by decide) (by decide)⟩

/-- Claim C2: for every non-negative position `p`, `into_block_byte`
returns `(p / block_size, p % block_size)` with the byte component in
`[0, block_size)`, and overflows precisely when the quotient does not fit
the counter type's range; in particular `into_block_byte(17, 16) = (1, 1)`. -/
theorem c2_into_block_byte_spec :
    (∀ (tw : IntWidth) (p bs : Nat), tw.min ≤ 0 → 0 < bs → bs ≤ 255 →
      into_block_byte tw (p : Int) bs =
        if ((p / bs : Nat) : Int) ≤ tw.max
        then some (((p / bs : Nat) : Int), p % bs)
        else none) ∧
    (∀ (tw : IntWidth) (p bs : Nat) (b : Int) (y : Nat), 0 < bs → bs ≤ 255 →
      into_block_byte tw (p : Int) bs = some (b, y) → y < bs) ∧
    into_block_byte u32W (17 : Int) 16 = some (1, 1) := by
  refine ⟨?_, ?_, by decide⟩
  · intro tw p bs hw hbs hbs255
    have h1 : p % bs < 256 := lt_of_lt_of_le (Nat.mod_lt p hbs) (by omega)
    have hbyte : ((p % bs : Nat) : Int) % 256 = ((p % bs : Nat) : Int) :=
      Int.emod_eq_of_lt (Int.ofNat_nonneg _) (by exact_mod_cast h1)
    unfold into_block_byte
    rw [tmod_natCast, tdiv_natCast, hbyte, Int.toNat_natCast]
    by_cases h : ((p / bs : Nat) : Int) ≤ tw.max
    · rw [if_pos (show tw.min ≤ ((p / bs : Nat) : Int) ∧ ((p / bs : Nat) : Int) ≤ tw.max from
          ⟨le_trans hw (Int.ofNat_nonneg _), h⟩), if_pos h]
    · rw [if_neg (show ¬(tw.min ≤ ((p / bs : Nat) : Int) ∧ ((p / bs : Nat) : Int) ≤ tw.max) from
          fun hc => h hc.2), if_neg h]
  · intro tw p bs b y hbs hbs255 heq
    have h1 : p % bs < 256 := lt_of_lt_of_le (Nat.mod_lt p hbs) (by omega)
    have hbyte : ((p % bs : Nat) : Int) % 256 = ((p % bs : Nat) : Int) :=
      Int.emod_eq_of_lt (Int.ofNat_nonneg _) (by exact_mod_cast h1)
    unfold into_block_byte at heq
    rw [tmod_natCast, tdiv_natCast, hbyte, Int.toNat_natCast] at heq
    split at heq
    · simp only [Option.some.injEq, Prod.mk.injEq] at heq
      have hy : y = p % bs := heq.2.symm
      have h2 : p % bs < bs := Nat.mod_lt p hbs
      omega
    · exact absurd heq (by simp)

/-- Witness for claim C2 at counter width `u64`, `p = 100`, `bs = 16`. -/
theorem c2_witness :
    (u64W.min ≤ 0 ∧ 0 < 16 ∧ (16 : Nat) ≤ 255) ∧
    into_block_byte u64W ((100 : Nat) : Int) 16 =
      (if ((100 / 16 : Nat) : Int) ≤ u64W.max
      then some (((100 / 16 : Nat) : Int), 100 % 16)
      else none) :=
  ⟨⟨by decide, by decide, by decide⟩,
    c2_into_block_byte_spec.1 u64W 100 16 (by decide) (by decide) (by decide)⟩

/-- Claim C10: the `i32` instantiation of `into_block_byte` accepts the
negative position `-1` (which is representable in `i32`): with an unsigned
counter type the truncating quotient `-1 / 16 = 0` converts successfully
and the byte component is `(-1 % 16) as u8 = 255`, which lies outside
`[0, 16)`; no overflow error is reported. -/
theorem c10_negative_position :
    i32W.min ≤ (-1 : Int) ∧ (-1 : Int) ≤ i32W.max ∧
    into_block_byte u32W (-1 : Int) 16 = some (0, 255) ∧ ¬ (255 < 16) := by
  decide

section NonZeroScalarLemmas

variable {F : Type} [Field F] [DecidableEq F]

theorem scanProds_length (acc : F) (l : List F) : (scanProds acc l).length = l.length := by
  induction l generalizing acc with
  | nil => rfl
  | cons a rest ih => simp [scanProds, ih]

theorem backWalk_append (t : F) (X Y : List (F × F)) :
    backWalk t (X ++ Y) = backWalk t X ++ backWalk (t * (X.map Prod.fst).prod) Y := by
  induction X generalizing t with
  | nil => simp [backWalk]
  | cons p X ih => simp [backWalk, ih, mul_assoc]

theorem backWalk_spec (l : List F) : ∀ c : F, c ≠ 0 → (∀ x ∈ l, x ≠ 0) →
    backWalk (c * l.prod)⁻¹ ((l.zip (scanProds c l)).reverse) =
      (l.map fun x => x⁻¹).reverse := by
  induction l with
  | nil => intro c _ _; simp [backWalk, scanProds]
  | cons a l ih =>
    intro c hc hl
    have ha : a ≠ 0 := hl a (List.mem_cons_self a l)
    have hl2 : ∀ x ∈ l, x ≠ 0 := fun x hx => hl x (List.mem_cons_of_mem a hx)
    have hP : l.prod ≠ 0 := List.prod_ne_zero fun h0 => hl2 0 h0 rfl
    have hT : c * (a :: l).prod = (c * a) * l.prod := by
      rw [List.prod_cons]; ring
    have hfst : (((l.zip (scanProds (c * a) l)).reverse).map Prod.fst) = l.reverse := by
      rw [List.map_reverse, List.map_fst_zip]
      exact le_of_eq (scanProds_length _ _).symm
    simp only [scanProds, List.zip_cons_cons, List.reverse_cons]
    rw [backWalk_append, hT, ih (c * a) (mul_ne_zero hc ha) hl2, hfst, List.prod_reverse]
    have hval : (((c * a) * l.prod)⁻¹ * l.prod) * c = a⁻¹ := by
      field_simp
      ring
    simp only [backWalk, List.map_cons, List.reverse_cons]
    rw [hval]

theorem batch_invert_scalars_eq (l : List F) (hl : ∀ x ∈ l, x ≠ 0) :
    batch_invert_scalars l = l.map fun x => x⁻¹ := by
  have h := backWalk_spec l 1 one_ne_zero hl
  rw [one_mul] at h
  unfold batch_invert_scalars
  rw [h, List.reverse_reverse]

theorem new_eq_some {s : F} {z : NonZeroScalar F}
    (h : NonZeroScalar.new s = some z) : z.scalar = s ∧ s ≠ 0 := by
  unfold NonZeroScalar.new at h
  by_cases hs : s = 0
  · rw [if_pos hs] at h
    exact absurd h (by simp)
  · rw [if_neg hs] at h
    have hz := Option.some.inj h
    exact ⟨(congrArg NonZeroScalar.scalar hz).symm, hs⟩

theorem from_repr_some {R : Type} {decode : R → Option F} {r : R} {z : NonZeroScalar F}
    (h : NonZeroScalar.from_repr decode r = some z) : z.scalar ≠ 0 := by
  unfold NonZeroScalar.from_repr at h
  rw [Option.bind_eq_some] at h
  obtain ⟨s, _, hs2⟩ := h
  have hn := new_eq_some hs2
  rw [hn.1]
  exact hn.2

end NonZeroScalarLemmas

/-- Claim C4: `NonZeroScalar::new(v)` is present iff `v` is not the additive
identity, `new(0)` is absent, and every fallible decoding path (`from_repr`,
`from_uint`, `TryFrom<&[u8]>`, deserialization) routes through this gate, so
no wrapper holding zero can be constructed. -/
theorem c4_construction_gate :
    (∀ (F : Type) [Field F] [DecidableEq F] (s : F),
      (NonZeroScalar.new s).isSome ↔ s ≠ 0) ∧
    (∀ (F : Type) [Field F] [DecidableEq F],
      NonZeroScalar.new (0 : F) = none) ∧
    (∀ (F : Type) [Field F] [DecidableEq F] (R : Type) (decode : R → Option F) (r : R)
      (z : NonZeroScalar F),
      NonZeroScalar.from_repr decode r = some z → z.scalar ≠ 0) ∧
    (∀ (F : Type) [Field F] [DecidableEq F] (U P : Type) (primNew : U → Option P)
      (toScalar : P → F) (u : U) (z : NonZeroScalar F),
      NonZeroScalar.from_uint primNew toScalar u = some z → z.scalar ≠ 0) ∧
    (∀ (F : Type) [Field F] [DecidableEq F] (R : Type) (toRepr : List Nat → Option R)
      (decode : R → Option F) (bytes : List Nat) (z : NonZeroScalar F),
      NonZeroScalar.try_from_bytes toRepr decode bytes = Except.ok z → z.scalar ≠ 0) ∧
    (∀ (F : Type) [Field F] [DecidableEq F] (D P : Type) (deser : D → Option P)
      (toScalar : P → F) (d : D) (z : NonZeroScalar F),
      NonZeroScalar.deserialize deser toScalar d = Except.ok z → z.scalar ≠ 0) := by
  refine ⟨?_, ?_, ?_, ?_, ?_, ?_⟩
  · intro F _ _ s
    unfold NonZeroScalar.new
    by_cases hs : s = 0 <;> simp [hs]
  · intro F _ _
    simp [NonZeroScalar.new]
  · intro F _ _ R decode r z h
    exact from_repr_some h
  · intro F _ _ U P primNew toScalar u z h
    unfold NonZeroScalar.from_uint at h
    rw [Option.bind_eq_some] at h
    obtain ⟨p, _, hp2⟩ := h
    have hn := new_eq_some hp2
    rw [hn.1]
    exact hn.2
  · intro F _ _ R toRepr decode bytes z h
    unfold NonZeroScalar.try_from_bytes at h
    split at h
    · exact Except.noConfusion h
    · split at h
      · rename_i r z0 heq
        have hz := Except.ok.inj h
        rw [← hz]
        exact from_repr_some heq
      · exact Except.noConfusion h
  · intro F _ _ D P deser toScalar d z h
    unfold NonZeroScalar.deserialize at h
    split at h
    · exact Except.noConfusion h
    · split at h
      · rename_i p z0 heq
        have hz := Except.ok.inj h
        have hn := new_eq_some heq
        rw [← hz, hn.1]
        exact hn.2
      · exact Except.noConfusion h

/-- Witness for claim C4: decoding the byte `[3]` through `from_repr` over
`ℚ` yields a wrapper whose scalar is non-zero. -/
theorem c4_witness :
    (NonZeroScalar.from_repr decodeQ1 [3] = some ⟨((3 : Nat) : ℚ)⟩) ∧
    ((⟨((3 : Nat) : ℚ)⟩ : NonZeroScalar ℚ).scalar ≠ 0) :=
  ⟨by decide, c4_construction_gate.2.2.1 ℚ (List Nat) decodeQ1 [3] ⟨((3 : Nat) : ℚ)⟩ (by decide)⟩

/-- Claim C5: multiplication, negation, both inversions and erasure keep the
wrapped scalar away from the additive identity, and so does every element
produced by batch inversion. -/
theorem c5_invariant_preserved :
    (∀ (F : Type) [Field F] [DecidableEq F] (a b : NonZeroScalar F),
      a.scalar ≠ 0 → b.scalar ≠ 0 →
      (NonZeroScalar.mul a b).scalar ≠ 0 ∧ (NonZeroScalar.neg a).scalar ≠ 0 ∧
      (NonZeroScalar.invert a).scalar ≠ 0 ∧ (NonZeroScalar.invert_vartime a).scalar ≠ 0 ∧
      (NonZeroScalar.zeroize a).scalar ≠ 0) ∧
    (∀ (F : Type) [Field F] [DecidableEq F] (l : List (NonZeroScalar F))
      (y : NonZeroScalar F),
      (∀ x ∈ l, x.scalar ≠ 0) → y ∈ NonZeroScalar.batch_invert l → y.scalar ≠ 0) := by
  constructor
  · intro F _ _ a b ha hb
    refine ⟨mul_ne_zero ha hb, neg_ne_zero.mpr ha, ?_, ?_, one_ne_zero⟩
    · unfold NonZeroScalar.invert scalarInvert
      rw [if_neg ha]
      exact inv_ne_zero ha
    · unfold NonZeroScalar.invert_vartime scalarInvert
      rw [if_neg ha]
      exact inv_ne_zero ha
  · intro F _ _ l y hl hy
    unfold NonZeroScalar.batch_invert at hy
    rw [batch_invert_scalars_eq] at hy
    · rw [List.mem_map] at hy
      obtain ⟨s, hs, rfl⟩ := hy
      rw [List.mem_map] at hs
      obtain ⟨x, hx, rfl⟩ := hs
      rw [List.mem_map] at hx
      obtain ⟨a, ha, rfl⟩ := hx
      exact inv_ne_zero (hl a ha)
    · intro x hx
      obtain ⟨a, ha, rfl⟩ := List.mem_map.mp hx
      exact hl a ha

/-- Witness for claim C5 at `a = 2`, `b = 3` over `ℚ`. -/
theorem c5_witness :
    ((⟨(2 : ℚ)⟩ : NonZeroScalar ℚ).scalar ≠ 0) ∧ ((⟨(3 : ℚ)⟩ : NonZeroScalar ℚ).scalar ≠ 0) ∧
    ((NonZeroScalar.mul (⟨(2 : ℚ)⟩ : NonZeroScalar ℚ) ⟨(3 : ℚ)⟩).scalar ≠ 0 ∧
     (NonZeroScalar.neg (⟨(2 : ℚ)⟩ : NonZeroScalar ℚ)).scalar ≠ 0 ∧
     (NonZeroScalar.invert (⟨(2 : ℚ)⟩ : NonZeroScalar ℚ)).scalar ≠ 0 ∧
     (NonZeroScalar.invert_vartime (⟨(2 : ℚ)⟩ : NonZeroScalar ℚ)).scalar ≠ 0 ∧
     (NonZeroScalar.zeroize (⟨(2 : ℚ)⟩ : NonZeroScalar ℚ)).scalar ≠ 0) :=
  ⟨by decide, by decide, c5_invariant_preserved.1 ℚ ⟨2⟩ ⟨3⟩ (by decide) (by decide)⟩

/-- Claim C6: immediately after `zeroize`, the wrapped scalar equals the
multiplicative identity and is never the additive identity. -/
theorem c6_zeroize_sets_one :
    ∀ (F : Type) [Field F] [DecidableEq F] (a : NonZeroScalar F), a.scalar ≠ 0 →
      (NonZeroScalar.zeroize a).scalar = 1 ∧ (NonZeroScalar.zeroize a).scalar ≠ 0 :=
  fun _ _ _ _ _ => ⟨rfl, one_ne_zero⟩

/-- Witness for claim C6 at `a = 5` over `ℚ`. -/
theorem c6_witness :
    ((⟨(5 : ℚ)⟩ : NonZeroScalar ℚ).scalar ≠ 0) ∧
    ((NonZeroScalar.zeroize (⟨(5 : ℚ)⟩ : NonZeroScalar ℚ)).scalar = 1 ∧
     (NonZeroScalar.zeroize (⟨(5 : ℚ)⟩ : NonZeroScalar ℚ)).scalar ≠ 0) :=
  ⟨by decide, c6_zeroize_sets_one ℚ ⟨5⟩ (by decide)⟩

theorem invert_mk {F : Type} [Field F] [DecidableEq F] (s : F) (hs : s ≠ 0) :
    NonZeroScalar.invert (⟨s⟩ : NonZeroScalar F) = ⟨s⁻¹⟩ := by
  unfold NonZeroScalar.invert scalarInvert
  simp [hs]

/-- Claim C7: inversion is an involution, the product of two non-zero
wrapped scalars is non-zero, and multiplying by an inverse cancels. -/
theorem c7_inversion_algebra :
    ∀ (F : Type) [Field F] [DecidableEq F] (a b : NonZeroScalar F),
      a.scalar ≠ 0 → b.scalar ≠ 0 →
      NonZeroScalar.invert (NonZeroScalar.invert a) = a ∧
      (NonZeroScalar.mul a b).scalar ≠ 0 ∧
      NonZeroScalar.mul (NonZeroScalar.mul a b) (NonZeroScalar.invert b) = a := by
  intro F _ _ a b ha hb
  obtain ⟨sa⟩ := a
  obtain ⟨sb⟩ := b
  have ha0 : sa ≠ 0 := ha
  have hb0 : sb ≠ 0 := hb
  refine ⟨?_, mul_ne_zero ha hb, ?_⟩
  · rw [invert_mk sa ha0, invert_mk _ (inv_ne_zero ha0), inv_inv]
  · rw [invert_mk sb hb0]
    show (⟨sa * sb * sb⁻¹⟩ : NonZeroScalar F) = ⟨sa⟩
    rw [mul_inv_cancel_right₀ hb0]

/-- Witness for claim C7 at `a = 2`, `b = 3` over `ℚ`. -/
theorem c7_witness :
    ((⟨(2 : ℚ)⟩ : NonZeroScalar ℚ).scalar ≠ 0) ∧ ((⟨(3 : ℚ)⟩ : NonZeroScalar ℚ).scalar ≠ 0) ∧
    (NonZeroScalar.invert (NonZeroScalar.invert (⟨(2 : ℚ)⟩ : NonZeroScalar ℚ)) = ⟨(2 : ℚ)⟩ ∧
     (NonZeroScalar.mul (⟨(2 : ℚ)⟩ : NonZeroScalar ℚ) ⟨(3 : ℚ)⟩).scalar ≠ 0 ∧
     NonZeroScalar.mul (NonZeroScalar.mul (⟨(2 : ℚ)⟩ : NonZeroScalar ℚ) ⟨(3 : ℚ)⟩)
       (NonZeroScalar.invert ⟨(3 : ℚ)⟩) = ⟨(2 : ℚ)⟩) :=
  ⟨by decide, by decide, c7_inversion_algebra ℚ ⟨2⟩ ⟨3⟩ (by decide) (by decide)⟩

/-- Claim C8: batch inversion of non-zero scalars keeps the collection's
shape, each output multiplied by its input gives the multiplicative
identity, the empty collection maps to the empty collection, and the one
value the algorithm inverts (the total product) is never the additive
identity. -/
theorem c8_batch_invert_spec :
    (∀ (F : Type) [Field F] [DecidableEq F] (l : List (NonZeroScalar F)),
      (∀ x ∈ l, x.scalar ≠ 0) →
      ((NonZeroScalar.batch_invert l).length = l.length ∧
       (∀ (i : Nat) (h1 : i < l.length) (h2 : i < (NonZeroScalar.batch_invert l).length),
         (l.get ⟨i, h1⟩).scalar * ((NonZeroScalar.batch_invert l).get ⟨i, h2⟩).scalar = 1) ∧
       (l.map fun a => a.scalar).prod ≠ 0)) ∧
    (∀ (F : Type) [Field F] [DecidableEq F],
      NonZeroScalar.batch_invert ([] : List (NonZeroScalar F)) = []) := by
  constructor
  · intro F _ _ l hl
    have hs : ∀ s ∈ l.map (fun a => a.scalar), s ≠ 0 := by
      intro s hsm
      obtain ⟨a, ha, rfl⟩ := List.mem_map.mp hsm
      exact hl a ha
    have hbeq : NonZeroScalar.batch_invert l =
        l.map fun a => (⟨a.scalar⁻¹⟩ : NonZeroScalar F) := by
      unfold NonZeroScalar.batch_invert
      rw [batch_invert_scalars_eq _ hs, List.map_map, List.map_map]
      rfl
    refine ⟨by rw [hbeq, List.length_map], ?_, ?_⟩
    · intro i hi1 hi2
      simp only [List.get_eq_getElem, hbeq, List.getElem_map]
      exact mul_inv_cancel₀ (hl _ (List.getElem_mem hi1))
    · exact List.prod_ne_zero fun h0 => by
        obtain ⟨a, ha, hza⟩ := List.mem_map.mp h0
        exact hl a ha hza
  · intro F _ _
    rfl

/-- Witness for claim C8 at the list `[2, 3]` over `ℚ`. -/
theorem c8_witness :
    (∀ x ∈ ([⟨2⟩, ⟨3⟩] : List (NonZeroScalar ℚ)), x.scalar ≠ 0) ∧
    ((NonZeroScalar.batch_invert ([⟨2⟩, ⟨3⟩] : List (NonZeroScalar ℚ))).length =
        ([⟨2⟩, ⟨3⟩] : List (NonZeroScalar ℚ)).length ∧
     (∀ (i : Nat) (h1 : i < ([⟨2⟩, ⟨3⟩] : List (NonZeroScalar ℚ)).length)
        (h2 : i < (NonZeroScalar.batch_invert ([⟨2⟩, ⟨3⟩] : List (NonZeroScalar ℚ))).length),
        (([⟨2⟩, ⟨3⟩] : List (NonZeroScalar ℚ)).get ⟨i, h1⟩).scalar *
          ((NonZeroScalar.batch_invert ([⟨2⟩, ⟨3⟩] : List (NonZeroScalar ℚ))).get
            ⟨i, h2⟩).scalar = 1 ∧ True) ∧
     (([⟨2⟩, ⟨3⟩] : List (NonZeroScalar ℚ)).map fun a => a.scalar).prod ≠ 0) :=
  ⟨by decide,
    by
      have h := c8_batch_invert_spec.1 ℚ [⟨2⟩, ⟨3⟩] (by decide)
      exact ⟨h.1, fun i h1 h2 => ⟨h.2.1 i h1 h2, trivial⟩, h.2.2⟩⟩
/-- Claim C3 (code-bug evidence): on a cipher with zero remaining keystream
bytes and the one-byte buffer `[1]`, `try_write_keystream` returns the
exhaustion error yet the buffer has been zeroed to `[0]` — not left
byte-for-byte unmodified, contradicting the method's own documentation —
while the underlying all-or-nothing `try_apply_keystream_inout` leaves the
same buffer untouched. -/
theorem c3_write_keystream_mutates_on_error :
    (tryWriteKeystream exhaustedCipher [1]).1 = Except.error ⟨⟩ ∧
    (tryWriteKeystream exhaustedCipher [1]).2.2 = [0] ∧
    (tryWriteKeystream exhaustedCipher [1]).2.2 ≠ [1] ∧
    (tryApplyKeystreamInout exhaustedCipher [1]).1 = Except.error ⟨⟩ ∧
    (tryApplyKeystreamInout exhaustedCipher [1]).2.2 = [1] :=
  ⟨rfl, rfl, by decide, rfl, rfl⟩

/-- Claim C9 counterexample: with a one-byte field over `ℚ`, the
wrong-length hex string `"0"` and the correctly-sized all-zero hex string
`"00"` produce the very same error value (the unit `Error` struct), and a
buffer-to-buffer length mismatch produces the very same error value as
keystream exhaustion (the unit `StreamCipherError` struct) — the error
kinds cannot be told apart by the caller. -/
theorem c9_counterexample :
    from_str 1 decodeQ1 ['0'] = Except.error ⟨⟩ ∧
    from_str 1 decodeQ1 ['0', '0'] = Except.error ⟨⟩ ∧
    from_str 1 decodeQ1 ['0'] = from_str 1 decodeQ1 ['0', '0'] ∧
    (applyKeystreamB2B freshCipher [0, 0, 0, 0, 0] [9, 9, 9, 9]).1 = Except.error ⟨⟩ ∧
    (tryApplyKeystreamInout exhaustedCipher [7]).1 = Except.error ⟨⟩ ∧
    (applyKeystreamB2B freshCipher [0, 0, 0, 0, 0] [9, 9, 9, 9]).1 =
      (tryApplyKeystreamInout exhaustedCipher [7]).1 :=
  ⟨rfl, rfl, rfl, rfl, rfl, rfl⟩

/-- Claim C9 amended: each failing condition does surface an error, but
error kinds are distinguishable only at the level of the error type: the
elliptic-curve `Error` and the cipher `StreamCipherError` are unit structs
with a single value each, so a wrong-length hex string and an all-zero
decode produce equal `Error` values, and a buffer-to-buffer length
mismatch and keystream exhaustion produce equal `StreamCipherError`
values. -/
theorem c9_amended_unit_errors :
    from_str 1 decodeQ1 ['0'] = Except.error CryptoError.mk ∧
    from_str 1 decodeQ1 ['0', '0'] = Except.error CryptoError.mk ∧
    (applyKeystreamB2B freshCipher [0, 0, 0, 0, 0] [9, 9, 9, 9]).1 =
      Except.error StreamCipherError.mk ∧
    (tryApplyKeystreamInout exhaustedCipher [7]).1 = Except.error StreamCipherError.mk ∧
    (∀ e1 e2 : CryptoError, e1 = e2) ∧
    (∀ e1 e2 : StreamCipherError, e1 = e2) :=
  ⟨rfl, rfl, rfl, rfl, fun _ _ => rfl, fun _ _ => rfl⟩
